import Mathlib

/-!
Verification of the Huffman codec in src/huffman.rs.

The Rust source is embedded shallowly:
* bytes are natural numbers (with hypotheses restricting them below 256,
  mirroring the u8 type);
* u64 / usize saturating additions are modelled by satAdd;
* the BinaryHeap of Reverse HeapNode values is modelled as a list from
  which popMin extracts the least element under the HeapNode ordering
  (freq first, then insertion id).  HeapNode.cmp is a total order and all
  ids in reachable heaps are distinct, so pop always returns the unique
  minimum; the list model is therefore faithful;
* BitVec values are lists of booleans, Vec values are lists;
* fallible functions return Except String.
-/

namespace Huffman

/-- Largest value of a 64-bit unsigned counter (u64 and usize saturate here). -/
def u64Max : Nat := 2 ^ 64 - 1

/-- Saturating addition, mirroring u64::saturating_add / usize::saturating_add. -/
def satAdd (a b : Nat) : Nat := min (a + b) u64Max

/-- Huffman tree node (enum Tree).  Convention: Left => false (0), Right => true (1). -/
inductive Tree where
  | leaf (token : Nat) (freq : Nat)
  | node (left : Tree) (right : Tree) (freq : Nat)
deriving DecidableEq, Repr

/-- Stored frequency of a tree (Tree::freq). -/
def Tree.freq : Tree → Nat
  | .leaf _ f => f
  | .node _ _ f => f

/-- Tree::new_leaf. -/
def Tree.new_leaf (token freq : Nat) : Tree := .leaf token freq

/-- Tree::new_node: the stored frequency is the sum of the children's. -/
def Tree.new_node (l r : Tree) : Tree := .node l r (l.freq + r.freq)

/-- List of (token, freq) pairs at the leaves, left to right. -/
def Tree.leaves : Tree → List (Nat × Nat)
  | .leaf t f => [(t, f)]
  | .node l r _ => l.leaves ++ r.leaves

/-- Tokens at the leaves, left to right. -/
def Tree.tokens (t : Tree) : List Nat := t.leaves.map Prod.fst

/-- Heap entry (struct HeapNode), used for deterministic ordering in the heap. -/
structure HeapNode where
  freq : Nat
  id : Nat
  tree : Tree
deriving DecidableEq, Repr

/-- The order given by HeapNode::cmp: by freq, then by id. -/
def HeapNode.le (a b : HeapNode) : Prop :=
  a.freq < b.freq ∨ (a.freq = b.freq ∧ a.id ≤ b.id)

instance (a b : HeapNode) : Decidable (a.le b) := by
  unfold HeapNode.le; infer_instance

/-- Extraction of the least entry (BinaryHeap::pop through Reverse):
returns the minimum under HeapNode.le together with the remaining entries. -/
def popMin : List HeapNode → Option (HeapNode × List HeapNode)
  | [] => none
  | a :: t =>
    match popMin t with
    | none => some (a, [])
    | some (m, rest) => if a.le m then some (a, t) else some (m, a :: rest)

theorem popMin_eq_none {l : List HeapNode} : popMin l = none ↔ l = [] := by
  cases l with
  | nil => simp [popMin]
  | cons a t =>
    simp only [popMin]
    constructor
    · intro h
      cases h1 : popMin t with
      | none => simp [h1] at h
      | some p => rw [h1] at h; cases p with | mk m rest => by_cases hle : a.le m <;> simp [hle] at h
    · intro h; exact absurd h (by simp)

theorem popMin_length {l : List HeapNode} {m : HeapNode} {rest : List HeapNode}
    (h : popMin l = some (m, rest)) : rest.length + 1 = l.length := by
  induction l generalizing m rest with
  | nil => simp [popMin] at h
  | cons a t ih =>
    simp only [popMin] at h
    cases h1 : popMin t with
    | none =>
      rw [h1] at h
      have ht : t = [] := popMin_eq_none.mp h1
      simp only [Option.some.injEq, Prod.mk.injEq] at h
      subst ht
      simp [← h.2]
    | some p =>
      rw [h1] at h
      cases p with
      | mk m1 rest1 =>
        by_cases hle : a.le m1
        · simp only [hle, if_pos] at h
          simp only [Option.some.injEq, Prod.mk.injEq] at h
          simp [← h.2]
        · simp only [hle, if_neg, not_false_iff] at h
          simp only [Option.some.injEq, Prod.mk.injEq] at h
          have := ih h1
          rw [← h.2]
          simp only [List.length_cons] at this ⊢
          omega

theorem popMin_perm {l : List HeapNode} {m : HeapNode} {rest : List HeapNode}
    (h : popMin l = some (m, rest)) : l.Perm (m :: rest) := by
  induction l generalizing m rest with
  | nil => simp [popMin] at h
  | cons a t ih =>
    simp only [popMin] at h
    cases h1 : popMin t with
    | none =>
      rw [h1] at h
      have ht : t = [] := popMin_eq_none.mp h1
      simp only [Option.some.injEq, Prod.mk.injEq] at h
      subst ht
      rw [← h.1, ← h.2]
    | some p =>
      rw [h1] at h
      cases p with
      | mk m1 rest1 =>
        by_cases hle : a.le m1
        · simp only [hle, if_pos] at h
          simp only [Option.some.injEq, Prod.mk.injEq] at h
          rw [← h.1, ← h.2]
        · simp only [hle, if_neg, not_false_iff] at h
          simp only [Option.some.injEq, Prod.mk.injEq] at h
          have hperm := ih h1
          rw [← h.1, ← h.2]
          exact (hperm.cons a).trans (List.Perm.swap m1 a rest1)

theorem HeapNode.le_total (a b : HeapNode) : a.le b ∨ b.le a := by
  unfold HeapNode.le; omega

theorem HeapNode.le_trans {a b c : HeapNode} (h1 : a.le b) (h2 : b.le c) : a.le c := by
  unfold HeapNode.le at h1 h2 ⊢; omega

theorem popMin_min {l : List HeapNode} {m : HeapNode} {rest : List HeapNode}
    (h : popMin l = some (m, rest)) : ∀ x ∈ l, m.le x := by
  induction l generalizing m rest with
  | nil => simp [popMin] at h
  | cons a t ih =>
    simp only [popMin] at h
    cases h1 : popMin t with
    | none =>
      rw [h1] at h
      have ht : t = [] := popMin_eq_none.mp h1
      simp only [Option.some.injEq, Prod.mk.injEq] at h
      subst ht
      intro x hx
      simp only [List.mem_singleton] at hx
      subst hx
      rw [← h.1]
      unfold HeapNode.le; omega
    | some p =>
      rw [h1] at h
      cases p with
      | mk m1 rest1 =>
        by_cases hle : a.le m1
        · simp only [hle, if_pos] at h
          simp only [Option.some.injEq, Prod.mk.injEq] at h
          intro x hx
          rw [← h.1]
          rcases List.mem_cons.mp hx with hx | hx
          · subst hx; unfold HeapNode.le; omega
          · exact HeapNode.le_trans hle (ih h1 x hx)
        · simp only [hle, if_neg, not_false_iff] at h
          simp only [Option.some.injEq, Prod.mk.injEq] at h
          intro x hx
          rw [← h.1]
          rcases List.mem_cons.mp hx with hx | hx
          · rcases HeapNode.le_total a m1 with hh | hh
            · exact absurd hh hle
            · rw [hx]; exact hh
          · exact ih h1 x hx

/-- Frequency table (struct FreqsTable): count for every byte value. -/
structure FreqsTable where
  freqs : Nat → Nat

/-- FreqsTable::new. -/
def FreqsTable.new : FreqsTable := ⟨fun _ => 0⟩

/-- FreqsTable::add with the saturating increment. -/
def FreqsTable.add (ft : FreqsTable) (token : Nat) (freq : Nat) : FreqsTable :=
  ⟨fun t => if t = token then satAdd (ft.freqs t) freq else ft.freqs t⟩

/-- construct_freqs_table: one add per input byte. -/
def construct_freqs_table (data : List Nat) : FreqsTable :=
  data.foldl (fun ft b => ft.add b 1) FreqsTable.new

/-- Encoder table (struct EncoderTable): bit code for every byte value;
EncoderTable::new fills every slot with the empty code. -/
abbrev EncoderTable := Nat → List Bool

/-- EncoderTable::new. -/
def EncoderTable.new : EncoderTable := fun _ => []

/-- EncoderTable::set. -/
def EncoderTable.set (tbl : EncoderTable) (token : Nat) (code : List Bool) : EncoderTable :=
  fun t => if t = token then code else tbl t

/-- EncoderTable::get. -/
def EncoderTable.get (tbl : EncoderTable) (token : Nat) : List Bool := tbl token

/-- Encoded message (struct Message). -/
structure Message where
  tree : Tree
  encoded_data : List Bool
  original_len : Nat
deriving DecidableEq, Repr

/-- Leaf-and-push phase of construct_huffman_tree: for each token in 0..256 in
ascending order with a nonzero count, push a leaf entry carrying the next
insertion id (ids 0, 1, 2, ... with the source's saturating increment).
Returns the heap and the next free id. -/
def initHeap (ft : FreqsTable) : List HeapNode × Nat :=
  (List.range 256).foldl
    (fun acc token =>
      if 0 < ft.freqs token then
        (acc.1 ++ [⟨ft.freqs token, acc.2, Tree.new_leaf token (ft.freqs token)⟩], satAdd acc.2 1)
      else acc)
    ([], 0)

/-- Merge loop of construct_huffman_tree (while minheap.len() > 1) followed by
the final pop: pop the two least entries, the first popped becomes the left
child, push the combined entry under the next insertion id.  Each iteration
shrinks the heap by exactly one entry, so running with fuel equal to the
initial heap length performs exactly the iterations of the source loop; the
none results (fuel zero or an empty heap) only arise from an initially empty
heap, which the caller has already ruled out (the source unwraps there). -/
def huffLoop : Nat → List HeapNode → Nat → Option Tree
  | 0, _, _ => none
  | fuel + 1, heap, nextId =>
    match popMin heap with
    | none => none
    | some (ln, rest1) =>
      match popMin rest1 with
      | none => some ln.tree
      | some (rn, rest2) =>
        huffLoop fuel
          (⟨ln.freq + rn.freq, nextId, Tree.new_node ln.tree rn.tree⟩ :: rest2)
          (satAdd nextId 1)

/-- construct_huffman_tree: build the initial heap, fail on an empty table,
otherwise run the merge loop. -/
def construct_huffman_tree (ft : FreqsTable) : Except String Tree :=
  let hp := initHeap ft
  if hp.1 = [] then .error "Empty frequency table: cannot construct Huffman tree"
  else
    match huffLoop hp.1.length hp.1 hp.2 with
    | some t => .ok t
    | none => .error "Empty frequency table: cannot construct Huffman tree"

/-- Inner traversal of construct_encoder_table: descend left with the code
extended by false, then right with the code extended by true; at a leaf store
the accumulated code for that token. -/
def traverse : Tree → List Bool → EncoderTable → EncoderTable
  | .leaf token _, code, table => table.set token code
  | .node l r _, code, table =>
    traverse r (code ++ [true]) (traverse l (code ++ [false]) table)

/-- construct_encoder_table: a bare leaf gets the one-bit code [false];
otherwise traverse from the root with the empty code. -/
def construct_encoder_table (tree : Tree) : EncoderTable :=
  match tree with
  | .leaf token _ => EncoderTable.new.set token [false]
  | .node _ _ _ => traverse tree [] EncoderTable.new

/-- Huffman::encode: empty input yields the empty message directly; otherwise
build the table, the tree and the encoder, and append each byte's code. -/
def encode (bytes : List Nat) : Except String Message :=
  if bytes = [] then
    .ok ⟨Tree.new_leaf 0 0, [], 0⟩
  else
    match construct_huffman_tree (construct_freqs_table bytes) with
    | .error e => .error e
    | .ok tree =>
      let encoder := construct_encoder_table tree
      .ok ⟨tree, bytes.foldl (fun acc b => acc ++ encoder.get b) [], bytes.length⟩

/-- Bit loop of Huffman::decode: walk from the cursor, on landing on a leaf
push its token, reset the cursor to the root and stop as soon as the pushed
count reaches the target.  Returns the decoded tokens and the final cursor. -/
def decodeLoop (root : Tree) (target : Nat) :
    List Bool → Tree → List Nat → List Nat × Tree
  | [], cursor, acc => (acc, cursor)
  | bit :: rest, cursor, acc =>
    match cursor with
    | .node l r _ =>
      let next := if bit then r else l
      match next with
      | .leaf token _ =>
        if acc.length + 1 = target then (acc ++ [token], root)
        else decodeLoop root target rest root (acc ++ [token])
      | .node _ _ _ => decodeLoop root target rest next acc
    | .leaf token _ =>
      if acc.length + 1 = target then (acc ++ [token], root)
      else decodeLoop root target rest root (acc ++ [token])

/-- Huffman::decode: zero length decodes to the empty list, a bare-leaf tree
to original_len copies of its token; otherwise run the bit loop, push the
final cursor's token if the stream ended resting on a leaf short of the
target, and fail on a length mismatch. -/
def decode (m : Message) : Except String (List Nat) :=
  if m.original_len = 0 then .ok []
  else
    match m.tree with
    | .leaf token _ => .ok (List.replicate m.original_len token)
    | .node _ _ _ =>
      let res := decodeLoop m.tree m.original_len m.encoded_data m.tree []
      let decoded :=
        if res.1.length < m.original_len then
          match res.2 with
          | .leaf token _ => res.1 ++ [token]
          | .node _ _ _ => res.1
        else res.1
      if decoded.length ≠ m.original_len then
        .error ("Decoded length mismatch: expected " ++ toString m.original_len ++
          ", got " ++ toString decoded.length)
      else .ok decoded

/-- Tokens of 0..256 with a nonzero count, in ascending order: exactly the
tokens that receive a leaf in the initial heap. -/
def posTokens (ft : FreqsTable) : List Nat :=
  (List.range 256).filter (fun t => decide (0 < ft.freqs t))

/-- Leaves of all trees in a heap, in heap-list order. -/
def flatLeaves (heap : List HeapNode) : List (Nat × Nat) :=
  (heap.map (fun h => h.tree.leaves)).flatten

/-- Frequency-sum invariant of Tree::new_node: every node stores the sum of
its children's frequencies. -/
def freqOk : Tree → Prop
  | .leaf _ _ => True
  | .node l r f => f = l.freq + r.freq ∧ freqOk l ∧ freqOk r

instance freqOkDec : (t : Tree) → Decidable (freqOk t)
  | .leaf _ _ => isTrue trivial
  | .node l r f =>
    have dl : Decidable (freqOk l) := freqOkDec l
    have dr : Decidable (freqOk r) := freqOkDec r
    inferInstanceAs (Decidable (f = l.freq + r.freq ∧ freqOk l ∧ freqOk r))

/-- PathTo t p token: following the direction list p from t (false = left,
true = right) ends at a leaf labelled token. -/
inductive PathTo : Tree → List Bool → Nat → Prop
  | leaf (token f : Nat) : PathTo (.leaf token f) [] token
  | left {l p token} (r : Tree) (f : Nat) :
      PathTo l p token → PathTo (.node l r f) (false :: p) token
  | right {r p token} (l : Tree) (f : Nat) :
      PathTo r p token → PathTo (.node l r f) (true :: p) token

/-- Symbol capacity of a message's bit sequence under its tree: the number of
symbols the decode state machine emits when run without the original_len
cutoff, including the trailing defensive emission when the run ends resting on
a leaf.  A bare-leaf tree emits original_len symbols without consuming bits. -/
def maxSymbols (m : Message) : Nat :=
  match m.tree with
  | .leaf _ _ => m.original_len
  | .node _ _ _ =>
    let res := decodeLoop m.tree (m.encoded_data.length + 1) m.encoded_data m.tree []
    match res.2 with
    | .leaf _ _ => res.1.length + 1
    | .node _ _ _ => res.1.length

theorem u64Max_pos : 0 < u64Max := by decide

theorem satAdd_eq_add {a b : Nat} (h : a + b ≤ u64Max) : satAdd a b = a + b := by
  unfold satAdd
  omega

/-- Appending per-byte codes with a fold is concatenating the mapped codes. -/
theorem foldl_append_eq_flatten (l : List Nat) (f : Nat → List Bool) (acc : List Bool) :
    l.foldl (fun a b => a ++ f b) acc = acc ++ (l.map f).flatten := by
  induction l generalizing acc with
  | nil => simp
  | cons b t ih => simp [ih, List.append_assoc]

theorem flatten_map_singleton {α β : Type} (l : List α) (f : α → β) :
    (l.map (fun x => [f x])).flatten = l.map f := by
  induction l with
  | nil => rfl
  | cons a t ih => simp [ih]

/-- Running totals of construct_freqs_table: each count is the saturated
number of occurrences seen so far. -/
theorem foldl_add_freqs (bytes : List Nat) (ft : FreqsTable) (t : Nat)
    (hle : ft.freqs t ≤ u64Max) :
    (bytes.foldl (fun a b => a.add b 1) ft).freqs t = min (ft.freqs t + bytes.count t) u64Max := by
  induction bytes generalizing ft with
  | nil =>
    simp only [List.foldl_nil, List.count_nil]
    omega
  | cons b rest ih =>
    simp only [List.foldl_cons]
    have hstep : (ft.add b 1).freqs t = if t = b then satAdd (ft.freqs t) 1 else ft.freqs t := rfl
    have hle2 : (ft.add b 1).freqs t ≤ u64Max := by
      rw [hstep]
      split
      · unfold satAdd; omega
      · exact hle
    rw [ih (ft.add b 1) hle2, hstep, List.count_cons]
    by_cases hb : t = b
    · subst hb
      simp only [if_pos rfl, beq_self_eq_true, if_true]
      unfold satAdd
      omega
    · have hbeq : (b == t) = false := beq_eq_false_iff_ne.mpr (fun hh => hb hh.symm)
      simp only [if_neg hb, hbeq, Bool.false_eq_true, if_false]
      omega

/-- The table built by construct_freqs_table stores the saturated occurrence
count of each byte. -/
theorem construct_freqs_table_freqs (bytes : List Nat) (t : Nat) :
    (construct_freqs_table bytes).freqs t = min (bytes.count t) u64Max := by
  have h := foldl_add_freqs bytes FreqsTable.new t (by simp [FreqsTable.new])
  simpa [construct_freqs_table, FreqsTable.new] using h

theorem construct_freqs_table_pos (bytes : List Nat) (t : Nat) :
    0 < (construct_freqs_table bytes).freqs t ↔ t ∈ bytes := by
  rw [construct_freqs_table_freqs]
  rw [← List.count_pos_iff]
  have := u64Max_pos
  omega

theorem construct_freqs_table_eq_count (bytes : List Nat) (t : Nat)
    (h : bytes.length ≤ u64Max) :
    (construct_freqs_table bytes).freqs t = bytes.count t := by
  rw [construct_freqs_table_freqs]
  have := List.count_le_length t bytes
  omega

theorem mem_posTokens {ft : FreqsTable} {t : Nat} :
    t ∈ posTokens ft ↔ t < 256 ∧ 0 < ft.freqs t := by
  simp [posTokens, List.mem_filter, List.mem_range]

theorem posTokens_nodup (ft : FreqsTable) : (posTokens ft).Nodup :=
  (List.nodup_range 256).filter _

/-- Characterization of the initial heap: the foldl over the token range,
started from an arbitrary accumulator whose id counter cannot saturate. -/
theorem initHeap_go (ft : FreqsTable) (l : List Nat) (acc : List HeapNode) (c : Nat)
    (h : c + l.length ≤ u64Max) :
    l.foldl
      (fun acc token =>
        if 0 < ft.freqs token then
          (acc.1 ++ [⟨ft.freqs token, acc.2, Tree.new_leaf token (ft.freqs token)⟩],
            satAdd acc.2 1)
        else acc)
      (acc, c)
    = (acc ++ (List.enumFrom c (l.filter (fun t => decide (0 < ft.freqs t)))).map
        (fun p => ⟨ft.freqs p.2, p.1, Tree.new_leaf p.2 (ft.freqs p.2)⟩),
        c + (l.filter (fun t => decide (0 < ft.freqs t))).length) := by
  induction l generalizing acc c with
  | nil => simp
  | cons a t ih =>
    simp only [List.foldl_cons, List.length_cons] at h ⊢
    by_cases ha : 0 < ft.freqs a
    · rw [if_pos ha]
      have hsat : satAdd c 1 = c + 1 := satAdd_eq_add (by omega)
      rw [hsat]
      rw [ih (acc ++ [HeapNode.mk (ft.freqs a) c (Tree.new_leaf a (ft.freqs a))]) (c + 1)
        (by omega)]
      have hfilter : List.filter (fun t => decide (0 < ft.freqs t)) (a :: t)
          = a :: List.filter (fun t => decide (0 < ft.freqs t)) t := by
        simp [List.filter_cons, ha]
      rw [hfilter, List.enumFrom_cons]
      simp only [List.map_cons, List.length_cons, Prod.mk.injEq]
      exact ⟨by simp, by omega⟩
    · rw [if_neg ha]
      rw [ih acc c (by omega)]
      have hfilter : List.filter (fun t => decide (0 < ft.freqs t)) (a :: t)
          = List.filter (fun t => decide (0 < ft.freqs t)) t := by
        simp [List.filter_cons, ha]
      rw [hfilter]

/-- The initial heap holds one leaf per positive token, in ascending token
order, with insertion ids 0, 1, 2, ...; the returned next id is the number of
leaves. -/
theorem initHeap_eq (ft : FreqsTable) :
    initHeap ft
      = ((posTokens ft).enum.map
          (fun p => ⟨ft.freqs p.2, p.1, Tree.new_leaf p.2 (ft.freqs p.2)⟩),
        (posTokens ft).length) := by
  unfold initHeap
  rw [initHeap_go ft (List.range 256) [] 0 (by simp [u64Max])]
  simp [posTokens, List.enum]

theorem flatLeaves_initHeap (ft : FreqsTable) :
    flatLeaves (initHeap ft).1 = (posTokens ft).map (fun t => (t, ft.freqs t)) := by
  rw [initHeap_eq]
  unfold flatLeaves
  rw [List.map_map]
  have : ((fun h => h.tree.leaves) ∘ fun p : Nat × Nat =>
      (⟨ft.freqs p.2, p.1, Tree.new_leaf p.2 (ft.freqs p.2)⟩ : HeapNode))
      = fun p : Nat × Nat => [(p.2, ft.freqs p.2)] := by
    funext p
    rfl
  rw [this, flatten_map_singleton]
  have h2 : ((posTokens ft).enum.map (fun p : Nat × Nat => (p.2, ft.freqs p.2)))
      = ((posTokens ft).enum.map Prod.snd).map (fun t => (t, ft.freqs t)) := by
    rw [List.map_map]
    rfl
  rw [h2, List.enum_map_snd]

theorem flatLeaves_perm {h1 h2 : List HeapNode} (h : h1.Perm h2) :
    (flatLeaves h1).Perm (flatLeaves h2) := by
  unfold flatLeaves
  exact (h.map (fun x => x.tree.leaves)).flatten

/-- The merge loop with enough fuel always yields a tree on a nonempty heap. -/
theorem huffLoop_isSome (fuel : Nat) (heap : List HeapNode) (nextId : Nat)
    (hne : heap ≠ []) (hfuel : heap.length ≤ fuel) :
    (huffLoop fuel heap nextId).isSome := by
  induction fuel generalizing heap nextId with
  | zero =>
    exact absurd hfuel (by cases heap with | nil => exact absurd rfl hne | cons a t => simp)
  | succ fuel ih =>
    rw [huffLoop]
    cases h1 : popMin heap with
    | none => exact absurd (popMin_eq_none.mp h1) hne
    | some p1 =>
      cases p1 with
      | mk ln rest1 =>
        cases h2 : popMin rest1 with
        | none => simp [h1, h2]
        | some p2 =>
          cases p2 with
          | mk rn rest2 =>
            have e1 := popMin_length h1
            have e2 := popMin_length h2
            simp only [h1, h2]
            exact ih
              (HeapNode.mk (ln.freq + rn.freq) nextId (Tree.new_node ln.tree rn.tree) :: rest2)
              (satAdd nextId 1) (by simp) (by simp only [List.length_cons]; omega)

/-- The merge loop preserves the multiset of leaves: the resulting tree's
leaves are exactly the leaves scattered over the heap's trees. -/
theorem huffLoop_leaves (fuel : Nat) (heap : List HeapNode) (nextId : Nat) (t : Tree)
    (h : huffLoop fuel heap nextId = some t) :
    t.leaves.Perm (flatLeaves heap) := by
  induction fuel generalizing heap nextId t with
  | zero => exact absurd h (by rw [huffLoop]; simp)
  | succ fuel ih =>
    rw [huffLoop] at h
    cases h1 : popMin heap with
    | none => simp [h1] at h
    | some p1 =>
      simp only [h1] at h
      cases p1 with
      | mk ln rest1 =>
        cases h2 : popMin rest1 with
        | none =>
          simp only [h2, Option.some.injEq] at h
          have hp1 : heap.Perm (ln :: rest1) := popMin_perm h1
          have hr1 : rest1 = [] := popMin_eq_none.mp h2
          subst hr1
          subst h
          have : flatLeaves heap = flatLeaves [ln] := by
            have hlen : heap.length = 1 := by simpa using hp1.length_eq
            cases heap with
            | nil => simp at hlen
            | cons a s =>
              cases s with
              | nil =>
                have hmem : ln ∈ [a] := hp1.mem_iff.mpr (List.mem_singleton.mpr rfl)
                have : a = ln := (List.mem_singleton.mp hmem).symm
                rw [this]
              | cons b s2 => simp at hlen
          rw [this]
          simp [flatLeaves]
        | some p2 =>
          simp only [h2] at h
          cases p2 with
          | mk rn rest2 =>
            have hres := ih _ _ _ h
            have hp1 : heap.Perm (ln :: rest1) := popMin_perm h1
            have hp2 : rest1.Perm (rn :: rest2) := popMin_perm h2
            have hperm : flatLeaves heap |>.Perm
                (flatLeaves (HeapNode.mk (ln.freq + rn.freq) nextId
                  (Tree.new_node ln.tree rn.tree) :: rest2)) := by
              have s1 : (flatLeaves heap).Perm (flatLeaves (ln :: rest1)) :=
                flatLeaves_perm hp1
              have s2 : (flatLeaves (ln :: rest1)).Perm (flatLeaves (ln :: rn :: rest2)) :=
                flatLeaves_perm (hp2.cons ln)
              have s3 : flatLeaves (ln :: rn :: rest2)
                  = (ln.tree.leaves ++ rn.tree.leaves) ++ flatLeaves rest2 := by
                simp [flatLeaves, List.append_assoc]
              have s4 : flatLeaves (HeapNode.mk (ln.freq + rn.freq) nextId
                  (Tree.new_node ln.tree rn.tree) :: rest2)
                  = (ln.tree.leaves ++ rn.tree.leaves) ++ flatLeaves rest2 := by
                simp [flatLeaves, Tree.new_node, Tree.leaves]
              rw [s4, ← s3]
              exact s1.trans s2
            exact hres.trans hperm.symm

/-- The merge loop preserves the frequency-sum invariant of all its trees. -/
theorem huffLoop_freqOk (fuel : Nat) (heap : List HeapNode) (nextId : Nat) (t : Tree)
    (hall : ∀ x ∈ heap, freqOk x.tree) (h : huffLoop fuel heap nextId = some t) :
    freqOk t := by
  induction fuel generalizing heap nextId t with
  | zero => exact absurd h (by rw [huffLoop]; simp)
  | succ fuel ih =>
    rw [huffLoop] at h
    cases h1 : popMin heap with
    | none => simp [h1] at h
    | some p1 =>
      simp only [h1] at h
      cases p1 with
      | mk ln rest1 =>
        have hp1 : heap.Perm (ln :: rest1) := popMin_perm h1
        have hln : ln ∈ heap := hp1.mem_iff.mpr (List.mem_cons_self ln rest1)
        cases h2 : popMin rest1 with
        | none =>
          simp only [h2, Option.some.injEq] at h
          rw [← h]
          exact hall ln hln
        | some p2 =>
          simp only [h2] at h
          cases p2 with
          | mk rn rest2 =>
            have hp2 : rest1.Perm (rn :: rest2) := popMin_perm h2
            have hrn : rn ∈ heap :=
              hp1.mem_iff.mpr (List.mem_cons_of_mem ln (hp2.mem_iff.mpr
                (List.mem_cons_self rn rest2)))
            refine ih _ _ _ ?_ h
            intro x hx
            rcases List.mem_cons.mp hx with hx | hx
            · rw [hx]
              refine ⟨rfl, hall ln hln, hall rn hrn⟩
            · have : x ∈ rest1 := hp2.mem_iff.mpr (List.mem_cons_of_mem rn hx)
              exact hall x (hp1.mem_iff.mpr (List.mem_cons_of_mem ln this))

theorem initHeap_ne_nil {ft : FreqsTable} (h : posTokens ft ≠ []) : (initHeap ft).1 ≠ [] := by
  rw [initHeap_eq]
  simp only [ne_eq, List.map_eq_nil_iff]
  intro henum
  apply h
  have hlen := congrArg List.length henum
  simp only [List.enum_length, List.length_nil] at hlen
  exact List.eq_nil_of_length_eq_zero hlen

/-- Tree construction succeeds exactly when some token has a nonzero count. -/
theorem construct_huffman_tree_ok {ft : FreqsTable} (h : posTokens ft ≠ []) :
    ∃ t, construct_huffman_tree ft = Except.ok t := by
  have hne := initHeap_ne_nil h
  unfold construct_huffman_tree
  rw [if_neg hne]
  have hsome := huffLoop_isSome (initHeap ft).1.length (initHeap ft).1 (initHeap ft).2
    hne (by omega)
  cases hres : huffLoop (initHeap ft).1.length (initHeap ft).1 (initHeap ft).2 with
  | none => rw [hres] at hsome; simp at hsome
  | some t => exact ⟨t, rfl⟩

/-- The constructed tree carries exactly one leaf per positive token,
labelled with that token's count. -/
theorem construct_ok_leaves {ft : FreqsTable} {t : Tree}
    (h : construct_huffman_tree ft = Except.ok t) :
    t.leaves.Perm ((posTokens ft).map (fun tok => (tok, ft.freqs tok))) := by
  unfold construct_huffman_tree at h
  by_cases hne : (initHeap ft).1 = []
  · rw [if_pos hne] at h; exact absurd h (by simp)
  · rw [if_neg hne] at h
    cases hres : huffLoop (initHeap ft).1.length (initHeap ft).1 (initHeap ft).2 with
    | none => rw [hres] at h; exact absurd h (by simp)
    | some t2 =>
      rw [hres] at h
      simp only [Except.ok.injEq] at h
      subst h
      have := huffLoop_leaves _ _ _ _ hres
      rw [flatLeaves_initHeap] at this
      exact this

theorem construct_ok_freqOk {ft : FreqsTable} {t : Tree}
    (h : construct_huffman_tree ft = Except.ok t) : freqOk t := by
  unfold construct_huffman_tree at h
  by_cases hne : (initHeap ft).1 = []
  · rw [if_pos hne] at h; exact absurd h (by simp)
  · rw [if_neg hne] at h
    cases hres : huffLoop (initHeap ft).1.length (initHeap ft).1 (initHeap ft).2 with
    | none => rw [hres] at h; exact absurd h (by simp)
    | some t2 =>
      rw [hres] at h
      simp only [Except.ok.injEq] at h
      subst h
      refine huffLoop_freqOk _ _ _ _ ?_ hres
      intro x hx
      rw [initHeap_eq] at hx
      simp only [List.mem_map] at hx
      obtain ⟨p, _, hp⟩ := hx
      rw [← hp]
      exact trivial

theorem construct_tokens_perm {ft : FreqsTable} {t : Tree}
    (h : construct_huffman_tree ft = Except.ok t) :
    t.tokens.Perm (posTokens ft) := by
  have hl := (construct_ok_leaves h).map Prod.fst
  unfold Tree.tokens
  rw [List.map_map] at hl
  have : (Prod.fst ∘ fun tok => ((tok, ft.freqs tok) : Nat × Nat)) = id := by
    funext x; rfl
  rw [this, List.map_id] at hl
  exact hl

theorem construct_tokens_nodup {ft : FreqsTable} {t : Tree}
    (h : construct_huffman_tree ft = Except.ok t) : t.tokens.Nodup :=
  (construct_tokens_perm h).nodup_iff.mpr (posTokens_nodup ft)

theorem tokens_node (l r : Tree) (f : Nat) :
    (Tree.node l r f).tokens = l.tokens ++ r.tokens := by
  simp [Tree.tokens, Tree.leaves]

theorem tokens_leaf (tok f : Nat) : (Tree.leaf tok f).tokens = [tok] := rfl

/-- A token absent from a subtree is untouched by its traversal. -/
theorem traverse_not_mem (s : Tree) (t : Nat) (pre : List Bool) (tbl : EncoderTable)
    (h : t ∉ s.tokens) : traverse s pre tbl t = tbl t := by
  induction s generalizing pre tbl with
  | leaf tok f =>
    rw [tokens_leaf] at h
    simp only [List.mem_singleton] at h
    simp [traverse, EncoderTable.set, h]
  | node l r f ihl ihr =>
    rw [tokens_node] at h
    simp only [List.mem_append] at h
    push_neg at h
    simp only [traverse]
    rw [ihr _ _ h.2, ihl _ _ h.1]

/-- A token of a duplicate-free subtree receives its tree path, extended by
the prefix the traversal was entered with. -/
theorem traverse_mem (s : Tree) (t : Nat) (pre : List Bool) (tbl : EncoderTable)
    (hnd : s.tokens.Nodup) (h : t ∈ s.tokens) :
    ∃ p, PathTo s p t ∧ traverse s pre tbl t = pre ++ p := by
  induction s generalizing pre tbl with
  | leaf tok f =>
    rw [tokens_leaf] at h
    simp only [List.mem_singleton] at h
    subst h
    exact ⟨[], PathTo.leaf t f, by simp [traverse, EncoderTable.set]⟩
  | node l r f ihl ihr =>
    rw [tokens_node] at h hnd
    rcases (List.nodup_append.mp hnd) with ⟨hndl, hndr, _⟩
    simp only [List.mem_append] at h
    by_cases hr : t ∈ r.tokens
    · obtain ⟨p, hp, heq⟩ := ihr (pre ++ [true]) (traverse l (pre ++ [false]) tbl) hndr hr
      refine ⟨true :: p, PathTo.right l f hp, ?_⟩
      simp only [traverse]
      rw [heq]
      simp
    · have hl : t ∈ l.tokens := by
        rcases h with h | h
        · exact h
        · exact absurd h hr
      obtain ⟨p, hp, heq⟩ := ihl (pre ++ [false]) tbl hndl hl
      refine ⟨false :: p, PathTo.left r f hp, ?_⟩
      simp only [traverse]
      rw [traverse_not_mem r t _ _ hr, heq]
      simp

/-- For a node-rooted duplicate-free tree, the encoder table entry of every
token of the tree is its path from the root. -/
theorem encoder_pathTo {l r : Tree} {f : Nat} (hnd : (Tree.node l r f).tokens.Nodup)
    {t : Nat} (ht : t ∈ (Tree.node l r f).tokens) :
    ∃ p, PathTo (Tree.node l r f) p t ∧ construct_encoder_table (Tree.node l r f) t = p := by
  obtain ⟨p, hp, heq⟩ := traverse_mem (Tree.node l r f) t [] EncoderTable.new hnd ht
  exact ⟨p, hp, by simpa using heq⟩

/-- A path into a node is never empty. -/
theorem pathTo_node_ne_nil {l r : Tree} {f : Nat} {p : List Bool} {t : Nat}
    (h : PathTo (Tree.node l r f) p t) : p ≠ [] := by
  cases h <;> simp

/-- A path and any proper extension of it cannot both lead to leaves. -/
theorem pathTo_extend {s : Tree} {p1 : List Bool} {t1 : Nat} (h1 : PathTo s p1 t1) :
    ∀ {q : List Bool} {t2 : Nat}, PathTo s (p1 ++ q) t2 → t1 = t2 ∧ q = [] := by
  induction h1 with
  | leaf tok f =>
    intro q t2 h2
    simp only [List.nil_append] at h2
    cases h2
    exact ⟨rfl, rfl⟩
  | left r f hsub ih =>
    intro q t2 h2
    simp only [List.cons_append] at h2
    cases h2
    next hsub2 => exact ih hsub2
  | right l f hsub ih =>
    intro q t2 h2
    simp only [List.cons_append] at h2
    cases h2
    next hsub2 => exact ih hsub2

/-- Shape predicate: the tree is a Node. -/
def Tree.isNode : Tree → Prop
  | .leaf _ _ => False
  | .node _ _ _ => True

theorem decodeLoop_nil (root : Tree) (tgt : Nat) (cur : Tree) (acc : List Nat) :
    decodeLoop root tgt [] cur acc = (acc, cur) := rfl

theorem decodeLoop_cons_leaf (root : Tree) (tgt : Nat) (bit : Bool) (rest : List Bool)
    (tok f : Nat) (acc : List Nat) :
    decodeLoop root tgt (bit :: rest) (Tree.leaf tok f) acc
      = if acc.length + 1 = tgt then (acc ++ [tok], root)
        else decodeLoop root tgt rest root (acc ++ [tok]) := rfl

theorem decodeLoop_cons_child_leaf (root : Tree) (tgt : Nat) (bit : Bool) (rest : List Bool)
    (l r : Tree) (f : Nat) (tok f2 : Nat) (acc : List Nat)
    (hchild : (if bit then r else l) = Tree.leaf tok f2) :
    decodeLoop root tgt (bit :: rest) (Tree.node l r f) acc
      = if acc.length + 1 = tgt then (acc ++ [tok], root)
        else decodeLoop root tgt rest root (acc ++ [tok]) := by
  cases bit with
  | false =>
    simp only [Bool.false_eq_true, if_false] at hchild
    subst hchild
    rfl
  | true =>
    simp only [if_true] at hchild
    subst hchild
    rfl

theorem decodeLoop_cons_child_node (root : Tree) (tgt : Nat) (bit : Bool) (rest : List Bool)
    (l r : Tree) (f : Nat) (a b : Tree) (c : Nat) (acc : List Nat)
    (hchild : (if bit then r else l) = Tree.node a b c) :
    decodeLoop root tgt (bit :: rest) (Tree.node l r f) acc
      = decodeLoop root tgt rest (Tree.node a b c) acc := by
  cases bit with
  | false =>
    simp only [Bool.false_eq_true, if_false] at hchild
    subst hchild
    rfl
  | true =>
    simp only [if_true] at hchild
    subst hchild
    rfl

theorem decodeLoop_length_mono (root : Tree) (tgt : Nat) (bits : List Bool) (cur : Tree)
    (acc : List Nat) : acc.length ≤ (decodeLoop root tgt bits cur acc).1.length := by
  induction bits generalizing cur acc with
  | nil => simp [decodeLoop_nil]
  | cons bit rest ih =>
    cases cur with
    | leaf tok f =>
      rw [decodeLoop_cons_leaf]
      split
      · simp
      · exact le_trans (by simp) (ih root (acc ++ [tok]))
    | node l r f =>
      cases hchild : (if bit then r else l) with
      | leaf tok f2 =>
        rw [decodeLoop_cons_child_leaf root tgt bit rest l r f tok f2 acc hchild]
        split
        · simp
        · exact le_trans (by simp) (ih root (acc ++ [tok]))
      | node a b c =>
        rw [decodeLoop_cons_child_node root tgt bit rest l r f a b c acc hchild]
        exact ih (Tree.node a b c) acc

theorem decodeLoop_length_le (root : Tree) (tgt : Nat) (bits : List Bool) (cur : Tree)
    (acc : List Nat) :
    (decodeLoop root tgt bits cur acc).1.length ≤ acc.length + bits.length := by
  induction bits generalizing cur acc with
  | nil => simp [decodeLoop_nil]
  | cons bit rest ih =>
    cases cur with
    | leaf tok f =>
      rw [decodeLoop_cons_leaf]
      split
      · simp
      · have := ih root (acc ++ [tok])
        simp only [List.length_append, List.length_cons, List.length_nil] at this ⊢
        omega
    | node l r f =>
      cases hchild : (if bit then r else l) with
      | leaf tok f2 =>
        rw [decodeLoop_cons_child_leaf root tgt bit rest l r f tok f2 acc hchild]
        split
        · simp
        · have := ih root (acc ++ [tok])
          simp only [List.length_append, List.length_cons, List.length_nil] at this ⊢
          omega
      | node a b c =>
        rw [decodeLoop_cons_child_node root tgt bit rest l r f a b c acc hchild]
        have := ih (Tree.node a b c) acc
        simp only [List.length_cons] at this ⊢
        omega

/-- For a node-rooted tree the cursor left by the bit loop is never a leaf:
it is the root or an inner node reached from one. -/
theorem decodeLoop_cursor_isNode (root : Tree) (tgt : Nat) (bits : List Bool) (cur : Tree)
    (acc : List Nat) (hroot : root.isNode) (hcur : cur.isNode) :
    (decodeLoop root tgt bits cur acc).2.isNode := by
  induction bits generalizing cur acc with
  | nil => simpa [decodeLoop_nil] using hcur
  | cons bit rest ih =>
    cases cur with
    | leaf tok f => exact absurd hcur (by simp [Tree.isNode])
    | node l r f =>
      cases hchild : (if bit then r else l) with
      | leaf tok f2 =>
        rw [decodeLoop_cons_child_leaf root tgt bit rest l r f tok f2 acc hchild]
        split
        · exact hroot
        · exact ih root (acc ++ [tok]) hroot
      | node a b c =>
        rw [decodeLoop_cons_child_node root tgt bit rest l r f a b c acc hchild]
        exact ih (Tree.node a b c) acc trivial

/-- Walking the loop along a leaf's path from a node cursor consumes exactly
the path, emits the leaf's token and resets the cursor to the root — or stops
right there when the target is reached. -/
theorem decodeLoop_path (root : Tree) (tgt : Nat) :
    ∀ (p : List Bool) {cur : Tree} {tok : Nat}, PathTo cur p tok → cur.isNode →
      ∀ (rest : List Bool) (acc : List Nat),
        decodeLoop root tgt (p ++ rest) cur acc
          = if acc.length + 1 = tgt then (acc ++ [tok], root)
            else decodeLoop root tgt rest root (acc ++ [tok]) := by
  intro p
  induction p with
  | nil =>
    intro cur tok hp hcur
    cases hp
    exact absurd hcur (by simp [Tree.isNode])
  | cons bit p2 ih =>
    intro cur tok hp hcur rest acc
    rw [List.cons_append]
    cases hp with
    | left r f hsub =>
      rename_i l
      cases hl : l with
      | leaf tok3 f3 =>
        rw [hl] at hsub
        cases hsub
        rw [decodeLoop_cons_child_leaf root tgt false ([] ++ rest) (Tree.leaf tok f3) r f
          tok f3 acc (by simp)]
        simp
      | node a b c =>
        rw [hl] at hsub
        rw [decodeLoop_cons_child_node root tgt false (p2 ++ rest) (Tree.node a b c) r f
          a b c acc (by simp)]
        exact ih hsub trivial rest acc
    | right l f hsub =>
      rename_i r
      cases hr : r with
      | leaf tok3 f3 =>
        rw [hr] at hsub
        cases hsub
        rw [decodeLoop_cons_child_leaf root tgt true ([] ++ rest) l (Tree.leaf tok f3) f
          tok f3 acc (by simp)]
        simp
      | node a b c =>
        rw [hr] at hsub
        rw [decodeLoop_cons_child_node root tgt true (p2 ++ rest) l (Tree.node a b c) f
          a b c acc (by simp)]
        exact ih hsub trivial rest acc

/-- Decoding the concatenated codes of a nonempty token list, with the target
set to reach exactly its end, emits exactly those tokens and ignores anything
appended after the codes. -/
theorem decodeLoop_flatten (root : Tree) (hroot : root.isNode) (f : Nat → List Bool)
    (bytes : List Nat) (hne : bytes ≠ []) (hpaths : ∀ b ∈ bytes, PathTo root (f b) b)
    (extra : List Bool) (acc : List Nat) :
    decodeLoop root (acc.length + bytes.length) ((bytes.map f).flatten ++ extra) root acc
      = (acc ++ bytes, root) := by
  induction bytes generalizing acc with
  | nil => exact absurd rfl hne
  | cons b rest ih =>
    have hb := hpaths b (List.mem_cons_self b rest)
    simp only [List.map_cons, List.flatten_cons, List.append_assoc]
    rw [decodeLoop_path root (acc.length + (b :: rest).length) (f b) hb hroot
      ((rest.map f).flatten ++ extra) acc]
    cases rest with
    | nil =>
      simp
    | cons b2 rest2 =>
      rw [if_neg (by simp only [List.length_cons]; omega)]
      have htgt : acc.length + (b :: b2 :: rest2).length
          = (acc ++ [b]).length + (b2 :: rest2).length := by
        simp only [List.length_append, List.length_cons, List.length_nil]
        omega
      rw [htgt,
        ih (by simp) (fun x hx => hpaths x (List.mem_cons_of_mem b hx)) (acc ++ [b])]
      simp

/-- Once a run reaches its target it broke out of the loop, so bits appended
after the consumed ones leave the result unchanged. -/
theorem decodeLoop_reach_append (root : Tree) (tgt : Nat) (bits : List Bool) :
    ∀ (cur : Tree) (acc : List Nat), acc.length < tgt →
      (decodeLoop root tgt bits cur acc).1.length = tgt →
      ∀ extra, decodeLoop root tgt (bits ++ extra) cur acc = decodeLoop root tgt bits cur acc := by
  induction bits with
  | nil =>
    intro cur acc hlt hreach extra
    rw [decodeLoop_nil] at hreach
    have hreach2 : acc.length = tgt := hreach
    omega
  | cons bit rest ih =>
    intro cur acc hlt hreach extra
    rw [List.cons_append]
    cases cur with
    | leaf tok f =>
      rw [decodeLoop_cons_leaf] at hreach ⊢
      rw [decodeLoop_cons_leaf]
      split
      · rfl
      · rename_i hne2
        rw [if_neg hne2] at hreach
        have hmono := decodeLoop_length_mono root tgt rest root (acc ++ [tok])
        refine ih root (acc ++ [tok]) ?_ hreach extra
        simp only [List.length_append, List.length_cons, List.length_nil] at hne2 hreach ⊢
        omega
    | node l r f =>
      cases hchild : (if bit then r else l) with
      | leaf tok f2 =>
        rw [decodeLoop_cons_child_leaf root tgt bit rest l r f tok f2 acc hchild] at hreach
        rw [decodeLoop_cons_child_leaf root tgt bit (rest ++ extra) l r f tok f2 acc hchild,
          decodeLoop_cons_child_leaf root tgt bit rest l r f tok f2 acc hchild]
        split
        · rfl
        · rename_i hne2
          rw [if_neg hne2] at hreach
          refine ih root (acc ++ [tok]) ?_ hreach extra
          simp only [List.length_append, List.length_cons, List.length_nil] at hne2 ⊢
          omega
      | node a b c =>
        rw [decodeLoop_cons_child_node root tgt bit rest l r f a b c acc hchild] at hreach
        rw [decodeLoop_cons_child_node root tgt bit (rest ++ extra) l r f a b c acc hchild,
          decodeLoop_cons_child_node root tgt bit rest l r f a b c acc hchild]
        exact ih (Tree.node a b c) acc hlt hreach extra

/-- A run that never reaches either target behaves the same under both. -/
theorem decodeLoop_target_irrel (root : Tree) (t1 t2 : Nat) (bits : List Bool) :
    ∀ (cur : Tree) (acc : List Nat),
      (decodeLoop root t1 bits cur acc).1.length < t1 →
      (decodeLoop root t1 bits cur acc).1.length < t2 →
      decodeLoop root t2 bits cur acc = decodeLoop root t1 bits cur acc := by
  induction bits with
  | nil => intro cur acc _ _; rfl
  | cons bit rest ih =>
    intro cur acc h1 h2
    cases cur with
    | leaf tok f =>
      rw [decodeLoop_cons_leaf] at h1 h2 ⊢
      rw [decodeLoop_cons_leaf]
      have hmono := decodeLoop_length_mono root t1 rest root (acc ++ [tok])
      split at h1
      · rename_i heq
        simp only [heq, List.length_append, List.length_cons, List.length_nil] at h1
        omega
      · rename_i hne1
        rw [if_neg hne1] at h2
        have hne2 : ¬ acc.length + 1 = t2 := by
          simp only [List.length_append, List.length_cons, List.length_nil] at hmono
          omega
        rw [if_neg hne2, if_neg hne1]
        exact ih root (acc ++ [tok]) h1 h2
    | node l r f =>
      cases hchild : (if bit then r else l) with
      | leaf tok f2 =>
        rw [decodeLoop_cons_child_leaf root t1 bit rest l r f tok f2 acc hchild] at h1 h2
        rw [decodeLoop_cons_child_leaf root t2 bit rest l r f tok f2 acc hchild,
          decodeLoop_cons_child_leaf root t1 bit rest l r f tok f2 acc hchild]
        have hmono := decodeLoop_length_mono root t1 rest root (acc ++ [tok])
        split at h1
        · rename_i heq
          simp only [heq, List.length_append, List.length_cons, List.length_nil] at h1
          omega
        · rename_i hne1
          rw [if_neg hne1] at h2
          have hne2 : ¬ acc.length + 1 = t2 := by
            simp only [List.length_append, List.length_cons, List.length_nil] at hmono
            omega
          rw [if_neg hne2, if_neg hne1]
          exact ih root (acc ++ [tok]) h1 h2
      | node a b c =>
        rw [decodeLoop_cons_child_node root t1 bit rest l r f a b c acc hchild] at h1 h2
        rw [decodeLoop_cons_child_node root t2 bit rest l r f a b c acc hchild,
          decodeLoop_cons_child_node root t1 bit rest l r f a b c acc hchild]
        exact ih (Tree.node a b c) acc h1 h2

theorem decode_leaf_eq (tok f len : Nat) (bits : List Bool) (hlen : len ≠ 0) :
    decode ⟨Tree.leaf tok f, bits, len⟩ = Except.ok (List.replicate len tok) := by
  unfold decode
  rw [if_neg hlen]

theorem decode_node_of_run {lt rt : Tree} {f len : Nat} {bits : List Bool} {d : List Nat}
    (hlen : len ≠ 0)
    (hrun : (decodeLoop (Tree.node lt rt f) len bits (Tree.node lt rt f) []).1 = d)
    (hdlen : d.length = len) :
    decode ⟨Tree.node lt rt f, bits, len⟩ = Except.ok d := by
  unfold decode
  rw [if_neg hlen]
  simp only [hrun]
  have h1 : ¬ (d.length < len) := by omega
  rw [if_neg h1]
  have h2 : ¬ (d.length ≠ len) := by omega
  rw [if_neg h2]

theorem encode_eq_ok {bytes : List Nat} (hne : bytes ≠ []) {t : Tree}
    (hok : construct_huffman_tree (construct_freqs_table bytes) = Except.ok t) :
    encode bytes
      = Except.ok ⟨t, (bytes.map (construct_encoder_table t)).flatten, bytes.length⟩ := by
  unfold encode
  rw [if_neg hne, hok]
  dsimp only
  rw [foldl_append_eq_flatten bytes
    (fun b => EncoderTable.get (construct_encoder_table t) b) []]
  rfl

theorem mem_posTokens_of_mem {bytes : List Nat} {b : Nat} (hbm : b ∈ bytes) (hlt : b < 256) :
    b ∈ posTokens (construct_freqs_table bytes) :=
  mem_posTokens.mpr ⟨hlt, (construct_freqs_table_pos bytes b).mpr hbm⟩

theorem posTokens_ne_nil {bytes : List Nat} (hne : bytes ≠ [])
    (hb : ∀ b ∈ bytes, b < 256) : posTokens (construct_freqs_table bytes) ≠ [] := by
  obtain ⟨b0, hb0⟩ := List.exists_mem_of_ne_nil bytes hne
  intro hnil
  have hmem := mem_posTokens_of_mem hb0 (hb b0 hb0)
  rw [hnil] at hmem
  exact absurd hmem (List.not_mem_nil b0)

/-- C1 — **Round-trip**: for every byte sequence, encode succeeds and decode
of the resulting Message succeeds and returns exactly the input
(decode(encode(b)) == b).  Bytes are naturals below 256, mirroring u8. -/
theorem round_trip (bytes : List Nat) (hb : ∀ b ∈ bytes, b < 256) :
    ∃ m, encode bytes = Except.ok m ∧ decode m = Except.ok bytes := by
  by_cases hne : bytes = []
  · subst hne
    exact ⟨⟨Tree.new_leaf 0 0, [], 0⟩, rfl, rfl⟩
  · obtain ⟨t, hok⟩ := construct_huffman_tree_ok (posTokens_ne_nil hne hb)
    have henc := encode_eq_ok hne hok
    refine ⟨_, henc, ?_⟩
    have htokens : ∀ b ∈ bytes, b ∈ t.tokens := fun b hbm =>
      (construct_tokens_perm hok).mem_iff.mpr (mem_posTokens_of_mem hbm (hb b hbm))
    have hnd := construct_tokens_nodup hok
    have hlen0 : bytes.length ≠ 0 := fun h => hne (List.eq_nil_of_length_eq_zero h)
    cases t with
    | leaf tok f =>
      have hall : ∀ b ∈ bytes, b = tok := by
        intro b hbm
        have hmem := htokens b hbm
        rw [tokens_leaf] at hmem
        exact List.mem_singleton.mp hmem
      rw [decode_leaf_eq tok f bytes.length _ hlen0]
      rw [show List.replicate bytes.length tok = bytes from
        (List.eq_replicate_iff.mpr ⟨rfl, hall⟩).symm]
    | node l r f =>
      have hroot : (Tree.node l r f).isNode := trivial
      have hpaths : ∀ b ∈ bytes,
          PathTo (Tree.node l r f) (construct_encoder_table (Tree.node l r f) b) b := by
        intro b hbm
        obtain ⟨p, hp, heq⟩ := encoder_pathTo hnd (htokens b hbm)
        rw [heq]
        exact hp
      have hrun := decodeLoop_flatten (Tree.node l r f) hroot
        (construct_encoder_table (Tree.node l r f)) bytes hne hpaths [] []
      rw [List.append_nil] at hrun
      refine decode_node_of_run hlen0 ?_ rfl
      rw [show ([] : List Nat).length + bytes.length = bytes.length from by simp] at hrun
      rw [hrun]
      simp

/-- C1 witness. -/
theorem round_trip_witness :
    ∃ m, encode [72, 101, 108, 108, 111] = Except.ok m ∧
      decode m = Except.ok [72, 101, 108, 108, 111] :=
  round_trip [72, 101, 108, 108, 111] (by decide)

/-- C3 — **Empty input**: encode([]) returns the empty Message (original_len
0, empty bit sequence, placeholder leaf) directly in its empty-input branch,
and decode of that Message returns []. -/
theorem encode_decode_empty :
    encode [] = Except.ok ⟨Tree.new_leaf 0 0, [], 0⟩ ∧
      decode ⟨Tree.new_leaf 0 0, [], 0⟩ = Except.ok [] :=
  ⟨rfl, rfl⟩

/-- C10 — encode never returns an error: the empty input is special-cased
before tree construction, and a nonempty input puts at least one token into
the heap, so the empty-table error branch is unreachable from encode. -/
theorem encode_total (bytes : List Nat) (hb : ∀ b ∈ bytes, b < 256) :
    ∃ m, encode bytes = Except.ok m := by
  by_cases hne : bytes = []
  · subst hne
    exact ⟨⟨Tree.new_leaf 0 0, [], 0⟩, rfl⟩
  · obtain ⟨t, hok⟩ := construct_huffman_tree_ok (posTokens_ne_nil hne hb)
    exact ⟨_, encode_eq_ok hne hok⟩

/-- C10 witness. -/
theorem encode_total_witness : ∃ m, encode [5, 7, 5] = Except.ok m :=
  encode_total [5, 7, 5] (by decide)

theorem filter_range_eq_nil {n b : Nat} (h : n ≤ b) :
    (List.range n).filter (fun t => decide (t = b)) = [] := by
  rw [List.filter_eq_nil_iff]
  intro a ha
  have := List.mem_range.mp ha
  simp only [decide_eq_true_eq]
  omega

theorem filter_range_eq_single {n b : Nat} (h : b < n) :
    (List.range n).filter (fun t => decide (t = b)) = [b] := by
  induction n with
  | zero => omega
  | succ n ih =>
    rw [List.range_succ, List.filter_append]
    by_cases hb : b = n
    · subst hb
      rw [filter_range_eq_nil (le_refl b)]
      simp
    · have hlt : b < n := by omega
      rw [ih hlt]
      have : (List.filter (fun t => decide (t = b)) [n]) = [] := by
        simp only [List.filter_cons, List.filter_nil, decide_eq_true_eq]
        rw [if_neg (by omega)]
      rw [this, List.append_nil]

theorem posTokens_replicate {n b : Nat} (hn : 0 < n) (hb : b < 256) :
    posTokens (construct_freqs_table (List.replicate n b)) = [b] := by
  unfold posTokens
  have hfun : (fun t => decide (0 < (construct_freqs_table (List.replicate n b)).freqs t))
      = fun t => decide (t = b) := by
    funext t
    rw [construct_freqs_table_freqs]
    rw [List.count_replicate]
    by_cases ht : t = b
    · subst ht
      have hpos : 0 < min n u64Max := Nat.lt_min.mpr ⟨hn, u64Max_pos⟩
      simp [hpos]
    · have hbeq : (b == t) = false := beq_eq_false_iff_ne.mpr (fun hh => ht hh.symm)
      simp [hbeq, ht]
  rw [hfun, filter_range_eq_single hb]

theorem flatten_replicate_singleton {α : Type} (n : Nat) (a : α) :
    (List.replicate n [a]).flatten = List.replicate n a := by
  induction n with
  | zero => rfl
  | succ n ih => simp [List.replicate_succ, ih]

/-- C4 — **Single-symbol input**: a nonempty input with one distinct byte
value builds a bare-Leaf tree (no Node), the encoder assigns that symbol the
one-bit code {0} so the bit sequence is n copies of the 0 bit, and decode
reproduces the n copies of the byte. -/
theorem encode_single_symbol (n b : Nat) (hn : 0 < n) (hb : b < 256) :
    encode (List.replicate n b)
        = Except.ok ⟨Tree.leaf b (min n u64Max), List.replicate n false, n⟩ ∧
      construct_encoder_table (Tree.leaf b (min n u64Max)) b = [false] ∧
      (List.replicate n false).length = n ∧
      decode ⟨Tree.leaf b (min n u64Max), List.replicate n false, n⟩
        = Except.ok (List.replicate n b) := by
  have hne : List.replicate n b ≠ [] := by
    intro h
    have := congrArg List.length h
    simp at this
    omega
  have hfreq : (construct_freqs_table (List.replicate n b)).freqs b = min n u64Max := by
    rw [construct_freqs_table_freqs, List.count_replicate]
    simp
  have hheap : initHeap (construct_freqs_table (List.replicate n b))
      = ([⟨min n u64Max, 0, Tree.new_leaf b (min n u64Max)⟩], 1) := by
    rw [initHeap_eq, posTokens_replicate hn hb]
    simp [List.enum, hfreq]
  have hok : construct_huffman_tree (construct_freqs_table (List.replicate n b))
      = Except.ok (Tree.leaf b (min n u64Max)) := by
    unfold construct_huffman_tree
    rw [hheap]
    simp [huffLoop, popMin, Tree.new_leaf]
  have henc := encode_eq_ok hne hok
  have hcode : construct_encoder_table (Tree.leaf b (min n u64Max)) b = [false] := by
    simp [construct_encoder_table, EncoderTable.set]
  refine ⟨?_, hcode, by simp, ?_⟩
  · rw [henc]
    have hbits : ((List.replicate n b).map
        (construct_encoder_table (Tree.leaf b (min n u64Max)))).flatten
        = List.replicate n false := by
      rw [List.map_replicate, hcode, flatten_replicate_singleton]
    rw [hbits]
    simp
  · rw [decode_leaf_eq b (min n u64Max) n (List.replicate n false) (by omega)]

/-- C4 witness. -/
theorem encode_single_symbol_witness :
    encode (List.replicate 5 65)
        = Except.ok ⟨Tree.leaf 65 (min 5 u64Max), List.replicate 5 false, 5⟩ ∧
      construct_encoder_table (Tree.leaf 65 (min 5 u64Max)) 65 = [false] ∧
      (List.replicate 5 false).length = 5 ∧
      decode ⟨Tree.leaf 65 (min 5 u64Max), List.replicate 5 false, 5⟩
        = Except.ok (List.replicate 5 65) :=
  encode_single_symbol 5 65 (by decide) (by decide)

/-- C5 — every symbol present in a constructed tree receives exactly one
non-empty code (the table is a function, so at most one entry per symbol),
and the codes of distinct symbols of the tree are prefix-free: no symbol's
code extends to another symbol's code. -/
theorem encoder_prefix_free (ft : FreqsTable) (t : Tree)
    (hok : construct_huffman_tree ft = Except.ok t) :
    (∀ s ∈ t.tokens, construct_encoder_table t s ≠ []) ∧
    (∀ s1 ∈ t.tokens, ∀ s2 ∈ t.tokens, s1 ≠ s2 →
      ∀ ext : List Bool, construct_encoder_table t s2 ≠ construct_encoder_table t s1 ++ ext) := by
  have hnd := construct_tokens_nodup hok
  cases t with
  | leaf tok f =>
    constructor
    · intro s hs
      rw [tokens_leaf] at hs
      rw [List.mem_singleton.mp hs]
      simp [construct_encoder_table, EncoderTable.set]
    · intro s1 hs1 s2 hs2 hne ext
      rw [tokens_leaf] at hs1 hs2
      exact absurd ((List.mem_singleton.mp hs1).trans
        (List.mem_singleton.mp hs2).symm) hne
  | node l r f =>
    constructor
    · intro s hs
      obtain ⟨p, hp, heq⟩ := encoder_pathTo hnd hs
      rw [heq]
      exact pathTo_node_ne_nil hp
    · intro s1 hs1 s2 hs2 hne ext heq
      obtain ⟨p1, hp1, he1⟩ := encoder_pathTo hnd hs1
      obtain ⟨p2, hp2, he2⟩ := encoder_pathTo hnd hs2
      rw [he1, he2] at heq
      rw [heq] at hp2
      exact hne (pathTo_extend hp1 hp2).1

set_option maxRecDepth 100000 in
/-- C5 witness. -/
theorem encoder_prefix_free_witness :
    (∀ s ∈ (Tree.node (Tree.leaf 1 1) (Tree.leaf 0 2) 3).tokens,
      construct_encoder_table (Tree.node (Tree.leaf 1 1) (Tree.leaf 0 2) 3) s ≠ []) ∧
    (∀ s1 ∈ (Tree.node (Tree.leaf 1 1) (Tree.leaf 0 2) 3).tokens,
      ∀ s2 ∈ (Tree.node (Tree.leaf 1 1) (Tree.leaf 0 2) 3).tokens, s1 ≠ s2 →
      ∀ ext : List Bool,
        construct_encoder_table (Tree.node (Tree.leaf 1 1) (Tree.leaf 0 2) 3) s2
          ≠ construct_encoder_table (Tree.node (Tree.leaf 1 1) (Tree.leaf 0 2) 3) s1 ++ ext) :=
  encoder_prefix_free (construct_freqs_table [0, 0, 1])
    (Tree.node (Tree.leaf 1 1) (Tree.leaf 0 2) 3) (by rfl)

theorem posTokens_perm_dedup {bytes : List Nat} (hb : ∀ b ∈ bytes, b < 256) :
    (posTokens (construct_freqs_table bytes)).Perm bytes.dedup := by
  refine List.perm_of_nodup_nodup_toFinset_eq (posTokens_nodup _) (List.nodup_dedup bytes) ?_
  ext a
  simp only [List.mem_toFinset, List.mem_dedup, mem_posTokens, construct_freqs_table_pos]
  constructor
  · exact fun h => h.2
  · exact fun h => ⟨hb a h, h⟩

/-- C6 — tree invariants for a tree built from a nonempty input: every node
stores the sum of its children's frequencies, each leaf token occurs exactly
once, and the leaf frequencies sum to the input length.  The length bound is
the usize range of a Rust slice, below which the saturating counters are
exact. -/
theorem huffman_tree_invariants (bytes : List Nat) (t : Tree) (hne : bytes ≠ [])
    (hb : ∀ b ∈ bytes, b < 256) (hlen : bytes.length ≤ u64Max)
    (hok : construct_huffman_tree (construct_freqs_table bytes) = Except.ok t) :
    freqOk t ∧ t.tokens.Nodup ∧ (t.leaves.map Prod.snd).sum = bytes.length := by
  refine ⟨construct_ok_freqOk hok, construct_tokens_nodup hok, ?_⟩
  have hperm := (construct_ok_leaves hok).map Prod.snd
  rw [List.map_map] at hperm
  have hcomp : (Prod.snd ∘ fun tok => ((tok, (construct_freqs_table bytes).freqs tok) : Nat × Nat))
      = fun tok => (construct_freqs_table bytes).freqs tok := by
    funext x; rfl
  rw [hcomp] at hperm
  rw [hperm.sum_eq]
  have hcount : (fun tok => (construct_freqs_table bytes).freqs tok)
      = fun tok => bytes.count tok := by
    funext tok
    exact construct_freqs_table_eq_count bytes tok hlen
  rw [hcount]
  have hperm2 := (posTokens_perm_dedup hb).map (fun tok => bytes.count tok)
  rw [hperm2.sum_eq]
  have := List.sum_map_count_dedup_eq_length bytes
  rw [show (fun tok => bytes.count tok) = fun x => List.count x bytes from rfl]
  exact this

set_option maxRecDepth 100000 in
/-- C6 witness. -/
theorem huffman_tree_invariants_witness :
    freqOk (Tree.node (Tree.leaf 1 1) (Tree.leaf 0 2) 3) ∧
      (Tree.node (Tree.leaf 1 1) (Tree.leaf 0 2) 3).tokens.Nodup ∧
      ((Tree.node (Tree.leaf 1 1) (Tree.leaf 0 2) 3).leaves.map Prod.snd).sum = [0, 0, 1].length :=
  huffman_tree_invariants [0, 0, 1] (Tree.node (Tree.leaf 1 1) (Tree.leaf 0 2) 3)
    (by decide) (by decide) (by decide) (by rfl)

/-- Evaluation of decode on a node-rooted message: the defensive final push
never fires because the loop's cursor is never a leaf, so decode checks the
loop's output length directly. -/
theorem decode_node_eval (lt rt : Tree) (f len : Nat) (bits : List Bool) (hlen : len ≠ 0) :
    decode ⟨Tree.node lt rt f, bits, len⟩
      = (if (decodeLoop (Tree.node lt rt f) len bits (Tree.node lt rt f) []).1.length ≠ len
        then Except.error ("Decoded length mismatch: expected " ++ toString len ++ ", got "
          ++ toString (decodeLoop (Tree.node lt rt f) len bits (Tree.node lt rt f) []).1.length)
        else Except.ok (decodeLoop (Tree.node lt rt f) len bits (Tree.node lt rt f) []).1) := by
  have hcur := decodeLoop_cursor_isNode (Tree.node lt rt f) len bits (Tree.node lt rt f) []
    trivial trivial
  unfold decode
  rw [if_neg hlen]
  dsimp only
  have hdec : (if (decodeLoop (Tree.node lt rt f) len bits (Tree.node lt rt f) []).1.length < len
      then match (decodeLoop (Tree.node lt rt f) len bits (Tree.node lt rt f) []).2 with
        | Tree.leaf token _ =>
            (decodeLoop (Tree.node lt rt f) len bits (Tree.node lt rt f) []).1 ++ [token]
        | Tree.node _ _ _ => (decodeLoop (Tree.node lt rt f) len bits (Tree.node lt rt f) []).1
      else (decodeLoop (Tree.node lt rt f) len bits (Tree.node lt rt f) []).1)
      = (decodeLoop (Tree.node lt rt f) len bits (Tree.node lt rt f) []).1 := by
    split
    · cases hres : (decodeLoop (Tree.node lt rt f) len bits (Tree.node lt rt f) []).2 with
      | leaf tok f2 => rw [hres] at hcur; exact absurd hcur (by simp [Tree.isNode])
      | node a b c => rfl
    · rfl
  rw [hdec]

/-- C8 — decode stops as soon as the emitted count reaches original_len, so
bits appended after a successfully decoded sequence do not change the
result. -/
theorem decode_ignores_extra_bits (t : Tree) (bits : List Bool) (n : Nat) (out : List Nat)
    (extra : List Bool) (h : decode ⟨t, bits, n⟩ = Except.ok out) :
    decode ⟨t, bits ++ extra, n⟩ = Except.ok out := by
  by_cases hn : n = 0
  · subst hn
    have hout : Except.ok ([] : List Nat) = Except.ok out := h
    unfold decode
    simpa using hout
  · cases t with
    | leaf tok f =>
      rw [decode_leaf_eq tok f n bits hn] at h
      rw [decode_leaf_eq tok f n (bits ++ extra) hn]
      exact h
    | node lt rt f =>
      rw [decode_node_eval lt rt f n bits hn] at h
      rw [decode_node_eval lt rt f n (bits ++ extra) hn]
      by_cases hreach : (decodeLoop (Tree.node lt rt f) n bits (Tree.node lt rt f) []).1.length = n
      · rw [decodeLoop_reach_append (Tree.node lt rt f) n bits (Tree.node lt rt f) []
          (by simp only [List.length_nil]; omega) hreach extra]
        rw [if_neg (by omega)] at h ⊢
        exact h
      · rw [if_pos hreach] at h
        exact absurd h (by simp)

/-- C8 witness. -/
theorem decode_ignores_extra_bits_witness :
    decode ⟨Tree.node (Tree.leaf 1 1) (Tree.leaf 0 2) 3,
      [false, true] ++ [true, true, false], 2⟩ = Except.ok [1, 0] :=
  decode_ignores_extra_bits (Tree.node (Tree.leaf 1 1) (Tree.leaf 0 2) 3)
    [false, true] 2 [1, 0] [true, true, false] (by rfl)

/-- C2 — **Corruption safety**: whenever original_len exceeds the number of
symbols the bit sequence can produce under the tree (maxSymbols, the output
count of the cutoff-free decode machine), decode returns the length-mismatch
error naming both counts.  decode is a total function of the finite bit list,
so it can neither panic nor diverge on any tree/bits/length combination. -/
theorem decode_corrupted_len_mismatch (m : Message) (h : maxSymbols m < m.original_len) :
    decode m = Except.error ("Decoded length mismatch: expected "
      ++ toString m.original_len ++ ", got " ++ toString (maxSymbols m)) := by
  cases m with
  | mk tree bits n =>
    cases tree with
    | leaf tok f =>
      exact absurd h (by simp [maxSymbols])
    | node lt rt f =>
      have hn : n ≠ 0 := by
        have h0 : 0 ≤ maxSymbols ⟨Tree.node lt rt f, bits, n⟩ := Nat.zero_le _
        simp only [Message.original_len] at h
        omega
      have hcur0 := decodeLoop_cursor_isNode (Tree.node lt rt f) (bits.length + 1) bits
        (Tree.node lt rt f) [] trivial trivial
      have hmax : maxSymbols ⟨Tree.node lt rt f, bits, n⟩
          = (decodeLoop (Tree.node lt rt f) (bits.length + 1) bits
            (Tree.node lt rt f) []).1.length := by
        unfold maxSymbols
        cases hres : (decodeLoop (Tree.node lt rt f) (bits.length + 1) bits
            (Tree.node lt rt f) []).2 with
        | leaf tok2 f2 => rw [hres] at hcur0; exact absurd hcur0 (by simp [Tree.isNode])
        | node a b c => simp [hres]
      simp only [Message.original_len] at h
      rw [hmax] at h
      have hle := decodeLoop_length_le (Tree.node lt rt f) (bits.length + 1) bits
        (Tree.node lt rt f) []
      simp only [List.length_nil] at hle
      have hirrel := decodeLoop_target_irrel (Tree.node lt rt f) (bits.length + 1) n bits
        (Tree.node lt rt f) [] (by omega) (by omega)
      rw [decode_node_eval lt rt f n bits hn, hirrel]
      rw [if_pos (by omega)]
      rw [hmax]

/-- C2 witness. -/
theorem decode_corrupted_len_mismatch_witness :
    decode ⟨Tree.node (Tree.leaf 0 1) (Tree.leaf 1 1) 2, [true], 5⟩
      = Except.error ("Decoded length mismatch: expected "
        ++ toString (Message.mk (Tree.node (Tree.leaf 0 1) (Tree.leaf 1 1) 2) [true] 5).original_len
        ++ ", got "
        ++ toString (maxSymbols ⟨Tree.node (Tree.leaf 0 1) (Tree.leaf 1 1) 2, [true], 5⟩)) :=
  decode_corrupted_len_mismatch ⟨Tree.node (Tree.leaf 0 1) (Tree.leaf 1 1) 2, [true], 5⟩
    (by decide)

set_option maxRecDepth 1000000 in
/-- C9 — **Compression sanity**: for the 14-byte input "AAAAAAAABBBCCD"
(A 0x41 = 65, B 66, C 67, D 68; frequencies 8/3/2/1) the encoded bit
sequence is strictly shorter than 112 = 8 x 14 bits (it has 23 bits), and
decode returns the input. -/
theorem compression_sanity :
    ∃ m, encode [65, 65, 65, 65, 65, 65, 65, 65, 66, 66, 66, 67, 67, 68] = Except.ok m ∧
      m.encoded_data.length < 112 ∧
      decode m = Except.ok [65, 65, 65, 65, 65, 65, 65, 65, 66, 66, 66, 67, 67, 68] := by
  refine ⟨⟨Tree.node (Tree.node (Tree.leaf 66 3) (Tree.node (Tree.leaf 68 1)
      (Tree.leaf 67 2) 3) 6) (Tree.leaf 65 8) 14,
    [true, true, true, true, true, true, true, true,
     false, false, false, false, false, false,
     false, true, true, false, true, true, false, true, false], 14⟩, ?_, ?_, ?_⟩
  · rfl
  · decide
  · rfl

theorem HeapNode.le_antisymm_id {a b : HeapNode} (h1 : a.le b) (h2 : b.le a) : a.id = b.id := by
  unfold HeapNode.le at h1 h2
  omega

/-- C7 — tree construction is the deterministic min-merge.  Conjuncts:
(1) the initial heap holds one leaf per nonzero-count byte value, in
ascending byte order (posTokens is strictly sorted), with insertion ids
enumerated 0, 1, 2, ...;
(2) a pop returns an entry that is least under (freq, id) among the heap's
entries, and only reorders the rest;
(3) one iteration of the merge loop pops the two least entries ln then rn,
makes ln the left child and rn the right child, gives the merged entry the
next insertion id and the summed frequency, and pushes it back;
(4) under distinct insertion ids the popped minimum is strictly least, so
the pop — and with it the whole merge — is uniquely determined;
(5) the merged entry's id is fresh: strictly greater than every id in the
heap it is pushed into;
(6) encode is a function of the input bytes alone, so encoding the same
input twice yields identical trees and bit sequences. -/
theorem construct_deterministic_min_merge :
    (∀ ft : FreqsTable,
      (initHeap ft).1 = (posTokens ft).enum.map
          (fun p => ⟨ft.freqs p.2, p.1, Tree.new_leaf p.2 (ft.freqs p.2)⟩) ∧
      (initHeap ft).2 = (posTokens ft).length ∧
      List.Pairwise (fun a b => a < b) (posTokens ft)) ∧
    (∀ (heap : List HeapNode) (m : HeapNode) (rest : List HeapNode),
      popMin heap = some (m, rest) →
      heap.Perm (m :: rest) ∧ ∀ x ∈ heap, m.le x) ∧
    (∀ (fuel : Nat) (heap : List HeapNode) (nextId : Nat) (ln rn : HeapNode)
      (rest1 rest2 : List HeapNode),
      popMin heap = some (ln, rest1) → popMin rest1 = some (rn, rest2) →
      huffLoop (fuel + 1) heap nextId
        = huffLoop fuel (⟨ln.freq + rn.freq, nextId, Tree.new_node ln.tree rn.tree⟩ :: rest2)
            (satAdd nextId 1)) ∧
    (∀ (heap : List HeapNode) (m : HeapNode) (rest : List HeapNode),
      (heap.map HeapNode.id).Nodup → popMin heap = some (m, rest) →
      ∀ x ∈ rest, ¬ x.le m) ∧
    (∀ (heap : List HeapNode) (nextId : Nat) (ln rn : HeapNode)
      (rest1 rest2 : List HeapNode),
      popMin heap = some (ln, rest1) → popMin rest1 = some (rn, rest2) →
      (∀ x ∈ heap, x.id < nextId) → nextId < u64Max →
      ∀ x ∈ (⟨ln.freq + rn.freq, nextId, Tree.new_node ln.tree rn.tree⟩ :: rest2 :
        List HeapNode), x.id < satAdd nextId 1) ∧
    (∀ bytes : List Nat, encode bytes = encode bytes) := by
  refine ⟨?_, ?_, ?_, ?_, ?_, fun _ => rfl⟩
  · intro ft
    refine ⟨?_, ?_, ?_⟩
    · rw [initHeap_eq]
    · rw [initHeap_eq]
    · exact (List.pairwise_lt_range 256).filter _
  · intro heap m rest h
    exact ⟨popMin_perm h, popMin_min h⟩
  · intro fuel heap nextId ln rn rest1 rest2 h1 h2
    rw [huffLoop]
    simp only [h1, h2]
  · intro heap m rest hnd h x hx hle
    have hperm := popMin_perm h
    have hmin := popMin_min h
    have hxheap : x ∈ heap := hperm.mem_iff.mpr (List.mem_cons_of_mem m hx)
    have hid : x.id = m.id := HeapNode.le_antisymm_id hle (hmin x hxheap)
    have hnd2 : ((m :: rest).map HeapNode.id).Nodup := ((hperm.map HeapNode.id).nodup_iff).mp hnd
    simp only [List.map_cons, List.nodup_cons] at hnd2
    exact hnd2.1 (hid ▸ List.mem_map_of_mem HeapNode.id hx)
  · intro heap nextId ln rn rest1 rest2 h1 h2 hida hmax x hx
    have hsat : satAdd nextId 1 = nextId + 1 := satAdd_eq_add (by omega)
    rw [hsat]
    rcases List.mem_cons.mp hx with hx | hx
    · rw [hx]
      show nextId < nextId + 1
      omega
    · have hp1 := popMin_perm h1
      have hp2 := popMin_perm h2
      have hxheap : x ∈ heap := hp1.mem_iff.mpr (List.mem_cons_of_mem ln
        (hp2.mem_iff.mpr (List.mem_cons_of_mem rn hx)))
      have := hida x hxheap
      omega

/-- C7 witness: one concrete merge step, with the pop order and the pushed
entry spelled out, and the permutation view of the first pop. -/
theorem construct_deterministic_min_merge_witness :
    huffLoop 2 [⟨2, 0, Tree.new_leaf 0 2⟩, ⟨1, 1, Tree.new_leaf 1 1⟩] 2
      = huffLoop 1 [⟨3, 2, Tree.new_node (Tree.new_leaf 1 1) (Tree.new_leaf 0 2)⟩]
          (satAdd 2 1) ∧
    ([⟨2, 0, Tree.new_leaf 0 2⟩, ⟨1, 1, Tree.new_leaf 1 1⟩] : List HeapNode).Perm
      [⟨1, 1, Tree.new_leaf 1 1⟩, ⟨2, 0, Tree.new_leaf 0 2⟩] ∧
    (∀ x ∈ ([⟨2, 0, Tree.new_leaf 0 2⟩, ⟨1, 1, Tree.new_leaf 1 1⟩] : List HeapNode),
      HeapNode.le ⟨1, 1, Tree.new_leaf 1 1⟩ x) := by
  have h := construct_deterministic_min_merge
  have hstep := h.2.2.1 1 [⟨2, 0, Tree.new_leaf 0 2⟩, ⟨1, 1, Tree.new_leaf 1 1⟩] 2
    ⟨1, 1, Tree.new_leaf 1 1⟩ ⟨2, 0, Tree.new_leaf 0 2⟩ [⟨2, 0, Tree.new_leaf 0 2⟩] []
    (by decide) (by decide)
  have hpop := h.2.1 [⟨2, 0, Tree.new_leaf 0 2⟩, ⟨1, 1, Tree.new_leaf 1 1⟩]
    ⟨1, 1, Tree.new_leaf 1 1⟩ [⟨2, 0, Tree.new_leaf 0 2⟩] (by decide)
  exact ⟨hstep, hpop.1, hpop.2⟩

end Huffman
